import Mathlib

/-!
Shallow embedding of `src/utils/metrics.py` (PGNA repository): the rank-based
evaluation metrics (`compute_metrics`, producing HITS@k and MRR), the
optimal-transport cost matrix (`compute_ot_cost_matrix`) and the run-log-path
helper (`log_path`), together with theorems settling the specification claims.
Distance values are modelled as rationals (exact arithmetic in place of the
floats of the source, which only compares and averages them); the real-valued
cost matrix is modelled over `ℝ`.
-/

namespace PGNA

/-- Insert index `i` into the index list `l`, assumed sorted by ascending
`row` value; `i` is placed after every current entry whose value is `≤ row[i]`,
so on ties later indices land after earlier ones (one stable-sort step). -/
def insertRanked (row : List ℚ) (i : ℕ) : List ℕ → List ℕ
  | [] => [i]
  | j :: rest =>
      if row.getD i 0 < row.getD j 0 then i :: j :: rest else j :: insertRanked row i rest

/-- Argsort of one row (`torch.argsort(·, dim=1)` applied to a single row):
the column indices `0, …, row.length - 1` reordered by ascending value.
Tie order inside `torch.argsort` is unspecified; this embedding fixes the
stable order, which is one admissible deterministic choice. -/
def argsortRow (row : List ℚ) : List ℕ :=
  (List.range row.length).foldl (fun acc i => insertRanked row i acc) []

/-- Row-wise argsort of a distance matrix: `torch.argsort(distances, dim=1)`
in `compute_metrics` (src/utils/metrics.py line 61-62). -/
def argsortMatrix (d : List (List ℚ)) : List (List ℕ) :=
  d.map argsortRow

/-- Hit-signal matrix: `ranks[:, :K] == truths[:, None]` (src/utils/metrics.py
lines 64-65).  Entry `(i, j)` is whether the `j`-th ranked column of row `i`
equals the `i`-th truth index, over the first `K` rank columns.  The numpy
broadcast pairs row `i` of `ranks` with entry `i` of `truths`, which the `zip`
reproduces when the two lengths agree (the only case `compute_metrics`
accepts). -/
def signalHit (ranks : List (List ℕ)) (truths : List ℕ) (K : ℕ) : List (List Bool) :=
  (ranks.zip truths).map fun rt => (rt.1.take K).map fun c => decide (c = rt.2)

/-- Count of `True` entries in the first `k` columns of a boolean matrix:
`np.sum(signal[:, :k])` (src/utils/metrics.py lines 67-68). -/
def countHits (signal : List (List Bool)) (k : ℕ) : ℕ :=
  (signal.map fun r => ((r.take k).filter id).length).sum

/-- HITS fraction of one direction at cutoff `k`:
`np.sum(signal[:, :k]) / test_pairs.shape[0]` (src/utils/metrics.py
lines 67-68); `n` is the number of test pairs. -/
def hitsAt (signal : List (List Bool)) (k : ℕ) (n : ℕ) : ℚ :=
  (countHits signal k : ℚ) / (n : ℚ)

/-- Column positions (0-indexed, starting at offset `n`) at which value `t`
occurs in one rank row: the per-row contribution of
`np.where(ranks == truths[:, None])[1]` (src/utils/metrics.py lines 71-72). -/
def wherePositions (t : ℕ) : List ℕ → ℕ → List ℕ
  | [], _ => []
  | c :: rest, n =>
      if c = t then n :: wherePositions t rest (n + 1) else wherePositions t rest (n + 1)

/-- Row-major list of all column positions where row `i` of `ranks` equals
entry `i` of `truths`: `np.where(ranks == truths[:, None])[1]`
(src/utils/metrics.py lines 71-72). -/
def matchCols (ranks : List (List ℕ)) (truths : List ℕ) : List ℕ :=
  ((ranks.zip truths).map fun rt => wherePositions rt.2 rt.1 0).flatten

/-- Mean of the reciprocals `1 / (p + 1)` over a position list:
`np.mean(1 / (positions + 1))` (src/utils/metrics.py lines 71-72).  The mean
of the empty list is `0` in this rational model (numpy yields NaN there). -/
def meanRecip (ps : List ℕ) : ℚ :=
  ((ps.map fun p : ℕ => (1 : ℚ) / ((p : ℚ) + 1)).sum) / (ps.length : ℚ)

/-- Forward hit-signal matrix of `compute_metrics`:
`signal1_hit = ranks1[:, :hit_top_ks[-1]] == np.expand_dims(test_pairs[:, 1], -1)`
(src/utils/metrics.py line 64). -/
def fwdSignal (d1 : List (List ℚ)) (pairs : List (ℕ × ℕ)) (ks : List ℕ) : List (List Bool) :=
  signalHit (argsortMatrix d1) (pairs.map Prod.snd) (ks.getLastD 0)

/-- Backward hit-signal matrix of `compute_metrics`:
`signal2_hit = ranks2[:, :hit_top_ks[-1]] == np.expand_dims(test_pairs[:, 0], -1)`
(src/utils/metrics.py line 65). -/
def bwdSignal (d2 : List (List ℚ)) (pairs : List (ℕ × ℕ)) (ks : List ℕ) : List (List Bool) :=
  signalHit (argsortMatrix d2) (pairs.map Prod.fst) (ks.getLastD 0)

/-- The HITS dictionary built by the `for k in hit_top_ks` loop of
`compute_metrics` (src/utils/metrics.py lines 66-69), as an association list
in loop order: `hits[k] = max(hits_ltr, hits_rtl)`. -/
def hitsList (d1 d2 : List (List ℚ)) (pairs : List (ℕ × ℕ)) (ks : List ℕ) : List (ℕ × ℚ) :=
  ks.map fun k =>
    (k, max (hitsAt (fwdSignal d1 pairs ks) k pairs.length)
            (hitsAt (bwdSignal d2 pairs ks) k pairs.length))

/-- The MRR value of `compute_metrics` (src/utils/metrics.py lines 71-73):
`mrr = max(mrr_ltr, mrr_rtl)` where each side averages reciprocal ranks over
the full rank arrays. -/
def mrrVal (d1 d2 : List (List ℚ)) (pairs : List (ℕ × ℕ)) : ℚ :=
  max (meanRecip (matchCols (argsortMatrix d1) (pairs.map Prod.snd)))
      (meanRecip (matchCols (argsortMatrix d2) (pairs.map Prod.fst)))

/-- The function `compute_metrics(distances1, distances2, test_pairs, hit_top_ks)`
(src/utils/metrics.py lines 47-75).  `none` models the raising executions:
`hit_top_ks[-1]` on an empty tuple (IndexError), and the numpy broadcast
error when a rank matrix does not have one row per test pair (numpy also
accepts a size-one side by replication; no claim touches that corner and the
claims' valid inputs all have equal lengths, so it is modelled as an error
as well).  Otherwise the call returns the complete pair `(hits, mrr)`. -/
def computeMetrics (d1 d2 : List (List ℚ)) (pairs : List (ℕ × ℕ)) (ks : List ℕ) :
    Option (List (ℕ × ℚ) × ℚ) :=
  if ks = [] ∨ d1.length ≠ pairs.length ∨ d2.length ≠ pairs.length then none
  else some (hitsList d1 d2 pairs ks, mrrVal d1 d2 pairs)

/-- Maximum of a list of cutoffs, as `max(hit_top_ks)` in the specification's
wording (the source instead takes the last element `hit_top_ks[-1]`). -/
def listMax (ks : List ℕ) : ℕ :=
  ks.foldr max 0

/-- Spec-side reading of the claim for the hit matrices: the rank row is the
one selected by indexing with the pair's own node index (`ranks[src_i]` for
the forward direction when `sel = Prod.fst`, `ranks[t_i]` backward), and the
truth compared against is the pair's other component. -/
def claimSignalBySel (ranks : List (List ℕ)) (pairs : List (ℕ × ℕ))
    (sel oth : ℕ × ℕ → ℕ) (K : ℕ) : List (List Bool) :=
  pairs.map fun p => ((ranks.getD (sel p) []).take K).map fun c => decide (c = oth p)

/-- Spec-side slice of the first `k` columns of a boolean matrix. -/
def firstCols (m : List (List Bool)) (k : ℕ) : List (List Bool) :=
  m.map (List.take k)

/-- Spec-side count of the `True` entries of a boolean matrix. -/
def countTrue (m : List (List Bool)) : ℕ :=
  (m.map fun r => (r.filter id).length).sum

/-- Spec-side HITS fraction: number of `True` entries in the first `k` columns
of a hit matrix, divided by the number `n` of test pairs. -/
def hitFracSpec (m : List (List Bool)) (k : ℕ) (n : ℕ) : ℚ :=
  (countTrue (firstCols m k) : ℚ) / (n : ℚ)

/-- Spec-side mean reciprocal rank of one direction: for each pair, the
0-indexed position (`List.indexOf`) of the truth inside the full rank row,
reciprocal `1 / (position + 1)`, averaged over all pairs. -/
def recipRankMean (ranks : List (List ℕ)) (truths : List ℕ) : ℚ :=
  ((ranks.zip truths).map fun rt => (1 : ℚ) / ((rt.1.indexOf rt.2 : ℚ) + 1)).sum
    / (truths.length : ℚ)

/-- Epsilon of `torch.nn.functional.normalize` (default `eps=1e-12`); the
denominator of the normalization is `max(‖row‖₂, eps)`. -/
noncomputable def normEps : ℝ :=
  1 / 10 ^ 12

/-- Row-wise L2 normalization: `F.normalize(m, p=2, dim=1)`
(src/utils/metrics.py lines 39-40).  Each row is divided by the maximum of
its Euclidean norm and `normEps`. -/
noncomputable def l2normalize {n d : ℕ} (m : Matrix (Fin n) (Fin d) ℝ) :
    Matrix (Fin n) (Fin d) ℝ :=
  fun i j => m i j / max (Real.sqrt (∑ k, m i k ^ 2)) normEps

/-- The function `compute_ot_cost_matrix` (src/utils/metrics.py lines 27-44),
with the two embedding sets of each graph passed directly (`r` = `G.dists`
structural embeddings, `x` = `G.x` feature embeddings): normalize all four
row-wise, then `alpha * torch.exp(-(r1 @ r2.T)) + (1 - alpha) * torch.exp(-(x1 @ x2.T))`. -/
noncomputable def compute_ot_cost_matrix {n1 n2 dr dx : ℕ}
    (r1 : Matrix (Fin n1) (Fin dr) ℝ) (r2 : Matrix (Fin n2) (Fin dr) ℝ)
    (x1 : Matrix (Fin n1) (Fin dx) ℝ) (x2 : Matrix (Fin n2) (Fin dx) ℝ)
    (alpha : ℝ) : Matrix (Fin n1) (Fin n2) ℝ :=
  alpha • ((l2normalize r1 * (l2normalize r2).transpose).map fun t => Real.exp (-t))
    + (1 - alpha) • ((l2normalize x1 * (l2normalize x2).transpose).map fun t => Real.exp (-t))

/-- Spec-side entrywise description of the transport cost: entry `(i, j)` is
`alpha * exp(-⟨r1_i, r2_j⟩) + (1 - alpha) * exp(-⟨x1_i, x2_j⟩)` where the
inner products are taken between the L2-normalized rows. -/
noncomputable def transportCostSpec {n1 n2 dr dx : ℕ}
    (r1 : Matrix (Fin n1) (Fin dr) ℝ) (r2 : Matrix (Fin n2) (Fin dr) ℝ)
    (x1 : Matrix (Fin n1) (Fin dx) ℝ) (x2 : Matrix (Fin n2) (Fin dx) ℝ)
    (alpha : ℝ) : Matrix (Fin n1) (Fin n2) ℝ :=
  fun i j =>
    alpha * Real.exp (-(∑ k, l2normalize r1 i k * l2normalize r2 j k))
      + (1 - alpha) * Real.exp (-(∑ k, l2normalize x1 i k * l2normalize x2 j k))

/-- Abstract state of the parts of the filesystem `log_path` observes:
`pathExists p` models `os.path.exists(p)` / `os.path.isdir(p)` for directory
paths, and `entries p` models `os.listdir(p)` paired with the `os.path.isdir`
flag of each entry. -/
structure FileSystem where
  pathExists : String → Bool
  entries : String → List (String × Bool)

/-- Effect of `os.makedirs(d)` for `d = logs/{dataset}_results` as observed by
`log_path`: `d` (and its parent `logs`) now exist and `d` is empty. -/
def makedirs (fs : FileSystem) (d : String) : FileSystem where
  pathExists := fun p => p = d || p = "logs" || fs.pathExists p
  entries := fun p => if p = d then [] else fs.entries p

/-- The function `log_path(dataset)` (src/utils/metrics.py lines 78-82):
create `logs/{dataset}_results` if absent, count its subdirectory entries
(`os.listdir` filtered by `os.path.isdir`), and return the path
`logs/{dataset}_results/run_{count}` together with the updated filesystem. -/
def log_path (fs : FileSystem) (dataset : String) : FileSystem × String :=
  let dir := "logs/" ++ dataset ++ "_results"
  let fs1 := if fs.pathExists dir then fs else makedirs fs dir
  let runs := ((fs1.entries dir).filter fun e => e.2).length
  (fs1, dir ++ "/run_" ++ toString runs)

/-- Spec-side predicate: entry name of the shape `run_{number}` — the prefix
`run_` followed by a nonempty digit string. -/
def isNumberedRun (s : String) : Bool :=
  match s.data with
  | 'r' :: 'u' :: 'n' :: '_' :: rest => !rest.isEmpty && rest.all Char.isDigit
  | _ => false

/-- Spec-side count of the numbered run subdirectories of directory `d`. -/
def numberedRunCount (fs : FileSystem) (d : String) : ℕ :=
  ((fs.entries d).filter fun e => isNumberedRun e.1 && e.2).length

/-- Filesystem in which `logs/ds_results` exists and holds one subdirectory
named `misc` (not of the `run_{number}` shape). -/
def fsWithMisc : FileSystem where
  pathExists := fun p => p == "logs" || p == "logs/ds_results" || p == "logs/ds_results/misc"
  entries := fun p => if p = "logs/ds_results" then [("misc", true)] else []

/-- Filesystem with no paths at all (fresh working directory). -/
def fsEmpty : FileSystem where
  pathExists := fun _ => false
  entries := fun _ => []

/-- All-ones one-by-one real matrix, used to instantiate the cost-matrix
theorems on a concrete input. -/
noncomputable def onesMat : Matrix (Fin 1) (Fin 1) ℝ :=
  fun _ _ => 1

theorem insertRanked_perm (row : List ℚ) (i : ℕ) (l : List ℕ) :
    (insertRanked row i l).Perm (i :: l) := by
  induction l with
  | nil => exact List.Perm.refl _
  | cons j rest ih =>
      rw [insertRanked]
      split
      · exact List.Perm.refl _
      · exact (ih.cons j).trans (List.Perm.swap i j rest)

theorem foldl_insertRanked_perm (row : List ℚ) :
    ∀ (l acc : List ℕ),
      (l.foldl (fun acc i => insertRanked row i acc) acc).Perm (l ++ acc)
  | [], acc => by simp
  | i :: l, acc => by
      rw [List.foldl_cons, List.cons_append]
      exact (foldl_insertRanked_perm row l (insertRanked row i acc)).trans
        ((List.Perm.append_left l (insertRanked_perm row i acc)).trans List.perm_middle)

theorem argsortRow_perm (row : List ℚ) :
    (argsortRow row).Perm (List.range row.length) := by
  simpa using foldl_insertRanked_perm row (List.range row.length) []

theorem argsortRow_length (row : List ℚ) : (argsortRow row).length = row.length := by
  simpa using (argsortRow_perm row).length_eq

theorem argsortRow_nodup (row : List ℚ) : (argsortRow row).Nodup :=
  ((argsortRow_perm row).nodup_iff).mpr (List.nodup_range _)

theorem mem_argsortRow {row : List ℚ} {j : ℕ} : j ∈ argsortRow row ↔ j < row.length := by
  rw [(argsortRow_perm row).mem_iff, List.mem_range]

theorem wherePositions_of_not_mem (t : ℕ) :
    ∀ (l : List ℕ) (n : ℕ), t ∉ l → wherePositions t l n = []
  | [], _, _ => rfl
  | c :: rest, n, h => by
      simp only [List.mem_cons, not_or] at h
      rw [wherePositions, if_neg fun hc => h.1 hc.symm,
        wherePositions_of_not_mem t rest (n + 1) h.2]

theorem wherePositions_of_nodup (t : ℕ) :
    ∀ (l : List ℕ) (n : ℕ), l.Nodup → t ∈ l → wherePositions t l n = [n + l.indexOf t]
  | [], _, _, hm => absurd hm (List.not_mem_nil t)
  | c :: rest, n, hnd, hm => by
      rw [wherePositions]
      by_cases hc : c = t
      · subst hc
        rw [if_pos rfl, wherePositions_of_not_mem c rest (n + 1) (List.nodup_cons.mp hnd).1,
          List.indexOf_cons_self]
        simp
      · have hm' : t ∈ rest := by
          rcases List.mem_cons.mp hm with h1 | h2
          · exact absurd h1.symm hc
          · exact h2
        rw [if_neg hc,
          wherePositions_of_nodup t rest (n + 1) (List.nodup_cons.mp hnd).2 hm',
          List.indexOf_cons_ne rest hc]
        simp only [List.cons.injEq, and_true]
        omega

theorem length_filter_id_map {α : Type} (p : α → Bool) :
    ∀ l : List α, ((l.map p).filter id).length = l.countP p
  | [] => rfl
  | a :: l => by
      by_cases h : p a
      · simp [List.filter_cons, h, List.countP_cons, length_filter_id_map p l]
      · simp [List.filter_cons, h, List.countP_cons, length_filter_id_map p l]

theorem countP_decide_eq_count (t : ℕ) :
    ∀ l : List ℕ, (l.countP fun c => decide (c = t)) = l.count t
  | [] => rfl
  | c :: l => by
      rw [List.countP_cons, List.count_cons, countP_decide_eq_count t l]
      by_cases h : c = t
      · simp [h]
      · simp [h]

theorem signal_row_count (r : List ℕ) (t K k : ℕ) :
    ((((r.take K).map fun c => decide (c = t)).take k).filter id).length
      = (r.take (min k K)).count t := by
  rw [← List.map_take, length_filter_id_map, List.take_take, countP_decide_eq_count]

theorem countHits_signalHit (ranks : List (List ℕ)) (truths : List ℕ) (K k : ℕ) :
    countHits (signalHit ranks truths K) k
      = ((ranks.zip truths).map fun rt => (rt.1.take (min k K)).count rt.2).sum := by
  unfold countHits signalHit
  rw [List.map_map]
  refine congrArg List.sum (List.map_congr_left fun rt _ => ?_)
  exact signal_row_count rt.1 rt.2 K k

theorem countHits_mono (s : List (List Bool)) {k k' : ℕ} (h : k ≤ k') :
    countHits s k ≤ countHits s k' := by
  unfold countHits
  refine List.sum_le_sum fun r _ => ?_
  refine List.Sublist.length_le (List.Sublist.filter id ?_)
  have heq : r.take k = (r.take k').take k := by rw [List.take_take, min_eq_left h]
  rw [heq]
  exact List.take_sublist k (r.take k')

theorem count_take_le_one {l : List ℕ} (h : l.Nodup) (t m : ℕ) :
    (l.take m).count t ≤ 1 :=
  List.nodup_iff_count_le_one.mp (List.Nodup.sublist (List.take_sublist m l) h) t

theorem zip_argsort_nodup {d : List (List ℚ)} {truths : List ℕ} {rt : List ℕ × ℕ}
    (h : rt ∈ (argsortMatrix d).zip truths) : rt.1.Nodup := by
  have h1 : rt.1 ∈ argsortMatrix d := by
    rcases rt with ⟨a, b⟩
    exact (List.of_mem_zip h).1
  rcases List.mem_map.mp h1 with ⟨r, -, hr⟩
  exact hr ▸ argsortRow_nodup r

theorem countHits_signal_le_length (d : List (List ℚ)) (truths : List ℕ) (K k : ℕ) :
    countHits (signalHit (argsortMatrix d) truths K) k
      ≤ ((argsortMatrix d).zip truths).length := by
  rw [countHits_signalHit]
  have h := List.sum_le_card_nsmul
    (((argsortMatrix d).zip truths).map fun rt => (rt.1.take (min k K)).count rt.2) 1 ?_
  · simpa using h
  · intro x hx
    rcases List.mem_map.mp hx with ⟨rt, hrt, hval⟩
    exact hval ▸ count_take_le_one (zip_argsort_nodup hrt) rt.2 (min k K)

theorem flatten_wherePositions (z : List (List ℕ × ℕ))
    (h : ∀ rt ∈ z, rt.1.Nodup ∧ rt.2 ∈ rt.1) :
    (z.map fun rt => wherePositions rt.2 rt.1 0).flatten
      = z.map fun rt => rt.1.indexOf rt.2 := by
  induction z with
  | nil => rfl
  | cons rt z ih =>
      have h1 := h rt (List.mem_cons_self rt z)
      rw [List.map_cons, List.map_cons, List.flatten_cons,
        wherePositions_of_nodup rt.2 rt.1 0 h1.1 h1.2,
        ih fun a ha => h a (List.mem_cons_of_mem rt ha)]
      simp

theorem meanRecip_matchCols (ranks : List (List ℕ)) (truths : List ℕ)
    (hlen : ranks.length = truths.length)
    (h : ∀ rt ∈ ranks.zip truths, rt.1.Nodup ∧ rt.2 ∈ rt.1) :
    meanRecip (matchCols ranks truths) = recipRankMean ranks truths := by
  unfold meanRecip recipRankMean matchCols
  rw [flatten_wherePositions _ h, List.map_map, List.length_map, List.length_zip, hlen,
    min_self]
  rfl

theorem natCast_div_nonneg (a n : ℕ) : 0 ≤ (a : ℚ) / (n : ℚ) :=
  div_nonneg (Nat.cast_nonneg a) (Nat.cast_nonneg n)

theorem natCast_div_le_one {a n : ℕ} (h : a ≤ n) : (a : ℚ) / (n : ℚ) ≤ 1 := by
  rcases Nat.eq_zero_or_pos n with h0 | h0
  · subst h0
    simp only [Nat.le_zero] at h
    simp [h]
  · exact (div_le_one (by exact_mod_cast h0)).mpr (by exact_mod_cast h)

theorem natCast_div_mono {a b : ℕ} (n : ℕ) (h : a ≤ b) :
    (a : ℚ) / (n : ℚ) ≤ (b : ℚ) / (n : ℚ) := by
  rcases Nat.eq_zero_or_pos n with h0 | h0
  · subst h0
    simp
  · exact (div_le_div_iff_of_pos_right (by exact_mod_cast h0)).mpr (by exact_mod_cast h)

theorem getLastD_sorted : ∀ (t : List ℕ) (b d : ℕ), (b :: t).Sorted (· ≤ ·) →
    (b :: t).getLastD d = listMax (b :: t)
  | [], b, d, _ => by simp [listMax]
  | c :: t, b, d, hs => by
      rw [List.getLastD_cons, getLastD_sorted t c b (List.Sorted.of_cons hs)]
      have hbc : b ≤ c := (List.sorted_cons.mp hs).1 c (List.mem_cons_self c t)
      have hc : c ≤ listMax (c :: t) := le_max_left c (listMax t)
      unfold listMax
      rw [List.foldr_cons]
      exact (max_eq_right (hbc.trans hc)).symm

theorem getLastD_eq_listMax {ks : List ℕ} (hne : ks ≠ []) (hs : ks.Sorted (· ≤ ·)) :
    ks.getLastD 0 = listMax ks := by
  cases ks with
  | nil => exact absurd rfl hne
  | cons b t => exact getLastD_sorted t b 0 hs

theorem computeMetrics_some {d1 d2 : List (List ℚ)} {pairs : List (ℕ × ℕ)} {ks : List ℕ}
    {hits : List (ℕ × ℚ)} {mrr : ℚ}
    (h : computeMetrics d1 d2 pairs ks = some (hits, mrr)) :
    ks ≠ [] ∧ d1.length = pairs.length ∧ d2.length = pairs.length
      ∧ hits = hitsList d1 d2 pairs ks ∧ mrr = mrrVal d1 d2 pairs := by
  unfold computeMetrics at h
  split at h
  · exact absurd h (by simp)
  · rename_i hguard
    push_neg at hguard
    simp only [Option.some.injEq, Prod.mk.injEq] at h
    exact ⟨hguard.1, hguard.2.1, hguard.2.2, h.1.symm, h.2.symm⟩

theorem hitFracSpec_eq (m : List (List Bool)) (k n : ℕ) :
    hitFracSpec m k n = hitsAt m k n := by
  unfold hitFracSpec hitsAt countTrue countHits firstCols
  rw [List.map_map]
  rfl

theorem countHits_clamp {s : List (List Bool)} {M k : ℕ} (hk : M ≤ k)
    (hr : ∀ r ∈ s, r.length ≤ M) : countHits s k = countHits s M := by
  unfold countHits
  refine congrArg List.sum (List.map_congr_left fun r hrs => ?_)
  rw [List.take_of_length_le ((hr r hrs).trans hk), List.take_of_length_le (hr r hrs)]

theorem signalHit_row_length {ranks : List (List ℕ)} {truths : List ℕ} {K : ℕ}
    {r : List Bool} (h : r ∈ signalHit ranks truths K) :
    ∃ rt ∈ ranks.zip truths, r.length = min K rt.1.length := by
  rcases List.mem_map.mp h with ⟨rt, hrt, hval⟩
  exact ⟨rt, hrt, by rw [← hval, List.length_map, List.length_take]⟩

theorem sum_all_eq_one {l : List ℕ} (hle : ∀ x ∈ l, x ≤ 1) (hsum : l.sum = l.length) :
    ∀ x ∈ l, x = 1 := by
  induction l with
  | nil => intro x hx; exact absurd hx (List.not_mem_nil x)
  | cons a l ih =>
      have hbound : l.sum ≤ l.length := by
        have := List.sum_le_card_nsmul l 1 fun x hx => hle x (List.mem_cons_of_mem a hx)
        simpa using this
      have ha : a ≤ 1 := hle a (List.mem_cons_self a l)
      rw [List.sum_cons, List.length_cons] at hsum
      have ha1 : a = 1 := by omega
      have hsum' : l.sum = l.length := by omega
      intro x hx
      rcases List.mem_cons.mp hx with hx1 | hx2
      · exact hx1 ▸ ha1
      · exact ih (fun y hy => hle y (List.mem_cons_of_mem a hy)) hsum' x hx2

theorem count_take_one_head {l : List ℕ} {t n : ℕ} (hn : n ≤ 1)
    (h : (l.take n).count t = 1) : ∃ rest, l = t :: rest := by
  cases l with
  | nil => simp at h
  | cons c rest =>
      interval_cases n
      · simp at h
      · rw [List.take_succ_cons, List.take_zero, List.count_cons] at h
        simp only [List.count_nil] at h
        by_cases hc : c = t
        · exact ⟨rest, by rw [hc]⟩
        · simp [hc] at h

theorem flatten_const_single {α β : Type} (z : List α) (x : β) :
    ((z.map fun _ => [x]).flatten) = z.map fun _ => x := by
  induction z with
  | nil => rfl
  | cons a z ih => simp [ih]

theorem normEps_pos : 0 < normEps := by
  unfold normEps
  positivity

theorem l2normalize_sq_sum_le_one {n d : ℕ} (m : Matrix (Fin n) (Fin d) ℝ) (i : Fin n) :
    ∑ k, l2normalize m i k ^ 2 ≤ 1 := by
  unfold l2normalize
  have hS0 : 0 ≤ ∑ k, m i k ^ 2 := Finset.sum_nonneg fun k _ => sq_nonneg _
  have hDpos : 0 < max (Real.sqrt (∑ k, m i k ^ 2)) normEps :=
    lt_of_lt_of_le normEps_pos (le_max_right _ _)
  have hsum : ∑ k, (m i k / max (Real.sqrt (∑ j, m i j ^ 2)) normEps) ^ 2
      = (∑ k, m i k ^ 2) / (max (Real.sqrt (∑ k, m i k ^ 2)) normEps) ^ 2 := by
    rw [Finset.sum_div]
    refine Finset.sum_congr rfl fun k _ => ?_
    rw [div_pow]
  rw [hsum]
  rw [div_le_one (pow_pos hDpos 2)]
  calc ∑ k, m i k ^ 2 = Real.sqrt (∑ k, m i k ^ 2) ^ 2 := (Real.sq_sqrt hS0).symm
    _ ≤ (max (Real.sqrt (∑ k, m i k ^ 2)) normEps) ^ 2 :=
        pow_le_pow_left₀ (Real.sqrt_nonneg _) (le_max_left _ _) 2

theorem normalized_dot_abs_le_one {n1 n2 d : ℕ} (a : Matrix (Fin n1) (Fin d) ℝ)
    (b : Matrix (Fin n2) (Fin d) ℝ) (i : Fin n1) (j : Fin n2) :
    |∑ k, l2normalize a i k * l2normalize b j k| ≤ 1 := by
  rw [← sq_le_one_iff_abs_le_one]
  calc (∑ k, l2normalize a i k * l2normalize b j k) ^ 2
      ≤ (∑ k, l2normalize a i k ^ 2) * ∑ k, l2normalize b j k ^ 2 :=
        Finset.sum_mul_sq_le_sq_mul_sq _ _ _
    _ ≤ 1 * 1 :=
        mul_le_mul (l2normalize_sq_sum_le_one a i) (l2normalize_sq_sum_le_one b j)
          (Finset.sum_nonneg fun k _ => sq_nonneg _) zero_le_one
    _ = 1 := mul_one 1

theorem cost_entry_eq {n1 n2 dr dx : ℕ}
    (r1 : Matrix (Fin n1) (Fin dr) ℝ) (r2 : Matrix (Fin n2) (Fin dr) ℝ)
    (x1 : Matrix (Fin n1) (Fin dx) ℝ) (x2 : Matrix (Fin n2) (Fin dx) ℝ)
    (alpha : ℝ) (i : Fin n1) (j : Fin n2) :
    compute_ot_cost_matrix r1 r2 x1 x2 alpha i j
      = alpha * Real.exp (-(∑ k, l2normalize r1 i k * l2normalize r2 j k))
        + (1 - alpha) * Real.exp (-(∑ k, l2normalize x1 i k * l2normalize x2 j k)) := by
  unfold compute_ot_cost_matrix
  simp [Matrix.add_apply, Matrix.smul_apply, Matrix.map_apply, Matrix.mul_apply,
    Matrix.transpose_apply, smul_eq_mul]

theorem exp_neg_range {x : ℝ} (h : |x| ≤ 1) :
    Real.exp (-1) ≤ Real.exp (-x) ∧ Real.exp (-x) ≤ Real.exp 1 := by
  obtain ⟨h1, h2⟩ := abs_le.mp h
  exact ⟨Real.exp_le_exp.mpr (by linarith), Real.exp_le_exp.mpr (by linarith)⟩

theorem convex_combo_range {w a b lo hi : ℝ} (h0 : 0 ≤ w) (h1 : w ≤ 1)
    (ha1 : lo ≤ a) (ha2 : a ≤ hi) (hb1 : lo ≤ b) (hb2 : b ≤ hi) :
    lo ≤ w * a + (1 - w) * b ∧ w * a + (1 - w) * b ≤ hi := by
  constructor <;> nlinarith

theorem signalHit_length (d : List (List ℚ)) (truths : List ℕ) (K : ℕ)
    (hlen : d.length = truths.length) :
    (signalHit (argsortMatrix d) truths K).length = truths.length := by
  unfold signalHit argsortMatrix
  rw [List.length_map, List.length_zip, List.length_map, hlen, min_self]

theorem signalHit_rows (d : List (List ℚ)) (truths : List ℕ) {K M : ℕ}
    (hr : ∀ r ∈ d, r.length = M) (hK : K ≤ M) :
    ∀ r ∈ signalHit (argsortMatrix d) truths K, r.length = K := by
  intro r hmem
  obtain ⟨rt, hrt, hval⟩ := signalHit_row_length hmem
  have h1 : rt.1 ∈ argsortMatrix d := by
    rcases rt with ⟨a, b⟩
    exact (List.of_mem_zip hrt).1
  rcases List.mem_map.mp h1 with ⟨row, hrow, heq⟩
  rw [hval, ← heq, argsortRow_length, hr row hrow, min_eq_left hK]

theorem signalHit_getD (d : List (List ℚ)) (truths : List ℕ) (K : ℕ)
    (hlen : d.length = truths.length) {i : ℕ} (hi : i < truths.length) :
    (signalHit (argsortMatrix d) truths K).getD i []
      = ((argsortRow (d.getD i [])).take K).map fun c => decide (c = truths.getD i 0) := by
  have hd : i < d.length := hlen ▸ hi
  have hsl : i < (signalHit (argsortMatrix d) truths K).length := by
    rw [signalHit_length d truths K hlen]
    exact hi
  rw [List.getD_eq_getElem _ _ hsl]
  simp only [signalHit, argsortMatrix, List.getElem_map, List.getElem_zip]
  rw [List.getD_eq_getElem d [] hd, List.getD_eq_getElem truths 0 hi]

theorem getD_map_pair {pairs : List (ℕ × ℕ)} {i : ℕ} (hi : i < pairs.length)
    (f : ℕ × ℕ → ℕ) : (pairs.map f).getD i 0 = f (pairs.getD i (0, 0)) := by
  rw [List.getD_eq_getElem _ _ (by rw [List.length_map]; exact hi),
    List.getD_eq_getElem _ _ hi, List.getElem_map]

/-- C7: `compute_ot_cost_matrix` L2-normalizes each row of both
structural-embedding sets and both feature-embedding sets, and returns the
matrix whose entry `(i, j)` is
`alpha * exp(-⟨r1_i, r2_j⟩) + (1 - alpha) * exp(-⟨x1_i, x2_j⟩)` with the
inner products taken between the normalized rows. -/
theorem claim7_transport_cost_refines_spec {n1 n2 dr dx : ℕ}
    (r1 : Matrix (Fin n1) (Fin dr) ℝ) (r2 : Matrix (Fin n2) (Fin dr) ℝ)
    (x1 : Matrix (Fin n1) (Fin dx) ℝ) (x2 : Matrix (Fin n2) (Fin dx) ℝ) (alpha : ℝ) :
    compute_ot_cost_matrix r1 r2 x1 x2 alpha = transportCostSpec r1 r2 x1 x2 alpha := by
  funext i j
  rw [cost_entry_eq]
  rfl

/-- C10: for `alpha ∈ [0, 1]` and embedding sets with non-zero rows, every
entry of `compute_ot_cost_matrix` lies in `[exp (-1), exp 1]`: the inner
products of normalized rows lie in `[-1, 1]`, and each entry is a convex
combination of exponentials of their negations. -/
theorem claim10_cost_entries_bounded {n1 n2 dr dx : ℕ}
    (r1 : Matrix (Fin n1) (Fin dr) ℝ) (r2 : Matrix (Fin n2) (Fin dr) ℝ)
    (x1 : Matrix (Fin n1) (Fin dx) ℝ) (x2 : Matrix (Fin n2) (Fin dx) ℝ) (alpha : ℝ)
    (h0 : 0 ≤ alpha) (h1 : alpha ≤ 1)
    (hr1 : ∀ i, ∃ k, r1 i k ≠ 0) (hr2 : ∀ i, ∃ k, r2 i k ≠ 0)
    (hx1 : ∀ i, ∃ k, x1 i k ≠ 0) (hx2 : ∀ i, ∃ k, x2 i k ≠ 0) :
    ∀ (i : Fin n1) (j : Fin n2),
      Real.exp (-1) ≤ compute_ot_cost_matrix r1 r2 x1 x2 alpha i j
        ∧ compute_ot_cost_matrix r1 r2 x1 x2 alpha i j ≤ Real.exp 1 := by
  intro i j
  rw [cost_entry_eq]
  obtain ⟨hra, hrb⟩ := exp_neg_range (normalized_dot_abs_le_one r1 r2 i j)
  obtain ⟨hxa, hxb⟩ := exp_neg_range (normalized_dot_abs_le_one x1 x2 i j)
  exact convex_combo_range h0 h1 hra hrb hxa hxb

/-- Witness for C10: the bounds at the all-ones one-by-one embeddings with
`alpha = 1/2`. -/
theorem claim10_witness :
    Real.exp (-1) ≤ compute_ot_cost_matrix onesMat onesMat onesMat onesMat (1 / 2) 0 0
      ∧ compute_ot_cost_matrix onesMat onesMat onesMat onesMat (1 / 2) 0 0 ≤ Real.exp 1 :=
  claim10_cost_entries_bounded onesMat onesMat onesMat onesMat (1 / 2)
    (le_of_lt one_half_pos) one_half_lt_one.le
    (fun _ => ⟨0, one_ne_zero⟩) (fun _ => ⟨0, one_ne_zero⟩)
    (fun _ => ⟨0, one_ne_zero⟩) (fun _ => ⟨0, one_ne_zero⟩) 0 0

/-- C1 counterexample: with distance rows stored positionally,
`test_pairs = [(1, 0), (0, 1)]` and `hit_top_ks = [1]`, the hit matrix the
code builds (row `i` of the rank array paired with test pair `i`) differs
from the claim's construction (row selected by indexing with the pair's
source index `src_i`): the code yields `[[true], [true]]`, the claim's
reading yields `[[false], [false]]`. -/
theorem claim1_counterexample :
    fwdSignal [[0, 1], [1, 0]] [(1, 0), (0, 1)] [1]
        ≠ claimSignalBySel (argsortMatrix [[0, 1], [1, 0]]) [(1, 0), (0, 1)]
            Prod.fst Prod.snd (listMax [1])
      ∧ fwdSignal [[0, 1], [1, 0]] [(1, 0), (0, 1)] [1] = [[true], [true]]
      ∧ claimSignalBySel (argsortMatrix [[0, 1], [1, 0]]) [(1, 0), (0, 1)]
          Prod.fst Prod.snd (listMax [1]) = [[false], [false]] := by
  refine ⟨?_, ?_, ?_⟩ <;> decide

/-- C1 (amended): the hit matrices of `compute_metrics` are built
positionally — for each test pair `i` the rank row compared against is row
`i` of the rank array (which is the row of source `src_i` exactly when the
distance matrices carry one row per test pair, in order), the compared truth
is the pair's true target (forward) resp. true source (backward), the column
cutoff is `max(hit_top_ks)` (the source's `hit_top_ks[-1]`, equal to the
maximum for the ascending sequences the contract requires), and the
resulting boolean matrices have shape `(N, K_max)` whenever
`K_max` does not exceed the column counts. -/
theorem claim1_hit_matrix_positional
    (d1 d2 : List (List ℚ)) (pairs : List (ℕ × ℕ)) (ks : List ℕ) (M1 M2 : ℕ)
    (h1 : d1.length = pairs.length) (h2 : d2.length = pairs.length)
    (hr1 : ∀ r ∈ d1, r.length = M1) (hr2 : ∀ r ∈ d2, r.length = M2)
    (hks : ks ≠ []) (hsort : ks.Sorted (· ≤ ·))
    (hK1 : listMax ks ≤ M1) (hK2 : listMax ks ≤ M2) :
    ((fwdSignal d1 pairs ks).length = pairs.length
        ∧ ∀ r ∈ fwdSignal d1 pairs ks, r.length = listMax ks)
      ∧ ((bwdSignal d2 pairs ks).length = pairs.length
        ∧ ∀ r ∈ bwdSignal d2 pairs ks, r.length = listMax ks)
      ∧ (∀ i, i < pairs.length →
          (fwdSignal d1 pairs ks).getD i []
            = ((argsortRow (d1.getD i [])).take (listMax ks)).map
                fun c => decide (c = (pairs.getD i (0, 0)).2))
      ∧ ∀ i, i < pairs.length →
          (bwdSignal d2 pairs ks).getD i []
            = ((argsortRow (d2.getD i [])).take (listMax ks)).map
                fun c => decide (c = (pairs.getD i (0, 0)).1) := by
  unfold fwdSignal bwdSignal
  rw [getLastD_eq_listMax hks hsort]
  have hl1 : d1.length = (pairs.map Prod.snd).length := by rw [List.length_map, h1]
  have hl2 : d2.length = (pairs.map Prod.fst).length := by rw [List.length_map, h2]
  refine ⟨⟨?_, ?_⟩, ⟨?_, ?_⟩, ?_, ?_⟩
  · rw [signalHit_length d1 _ _ hl1, List.length_map]
  · exact signalHit_rows d1 _ hr1 hK1
  · rw [signalHit_length d2 _ _ hl2, List.length_map]
  · exact signalHit_rows d2 _ hr2 hK2
  · intro i hi
    rw [signalHit_getD d1 _ _ hl1 (by rw [List.length_map]; exact hi),
      getD_map_pair hi Prod.snd]
  · intro i hi
    rw [signalHit_getD d2 _ _ hl2 (by rw [List.length_map]; exact hi),
      getD_map_pair hi Prod.fst]

/-- Witness for the amended C1 at a concrete input. -/
theorem claim1_witness :
    (fwdSignal [[0, 1], [1, 0]] [(0, 0), (1, 1)] [1, 2]).length = 2
      ∧ (fwdSignal [[0, 1], [1, 0]] [(0, 0), (1, 1)] [1, 2]).getD 0 []
          = ((argsortRow ([[0, 1], [1, 0]].getD 0 [])).take (listMax [1, 2])).map
              fun c => decide (c = (([(0, 0), (1, 1)].getD 0 ((0 : ℕ), (0 : ℕ))).2)) :=
  have h := claim1_hit_matrix_positional [[0, 1], [1, 0]] [[0, 1], [1, 0]]
    [(0, 0), (1, 1)] [1, 2] 2 2 rfl rfl (by decide) (by decide) (by decide)
    (by decide) (by decide) (by decide)
  ⟨h.1.1, h.2.2.1 0 (by decide)⟩

/-- C4 counterexample: with the true target `5` absent from the forward rank
row (the matrix has only two columns, so `5` is not a valid column index),
`compute_metrics` does not fail with a shape/index error — it completes and
returns a result: the pair contributes no forward hit (HITS@1 is still `1`
from the backward direction) and is simply omitted from the forward
reciprocal-rank mean (which numpy turns into a NaN mean, not an exception). -/
theorem claim4_counterexample :
    (computeMetrics [[0, 1]] [[0]] [(0, 5)] [1]).isSome = true
      ∧ hitsList [[0, 1]] [[0]] [(0, 5)] [1] = [(1, 1)]
      ∧ matchCols (argsortMatrix [[0, 1]]) [5] = []
      ∧ (5 : ℕ) ∉ argsortRow [0, 1] := by
  refine ⟨by rw [computeMetrics, if_neg (by decide)]; rfl, ?_, by decide, by decide⟩
  have h1 : fwdSignal [[0, 1]] [(0, 5)] [1] = [[false]] := by decide
  have h2 : bwdSignal [[0]] [(0, 5)] [1] = [[true]] := by decide
  have hc1 : countHits [[false]] 1 = 0 := by decide
  have hc2 : countHits [[true]] 1 = 1 := by decide
  rw [hitsList]
  norm_num [h1, h2, hitsAt, hc1, hc2]

/-- C4 (amended): `compute_metrics` does not fail when a true counterpart is
absent from a rank array; for every input whose shapes the broadcasts accept
(one distance row per test pair, nonempty `hit_top_ks`) it returns the
complete pair `(hits, mrr)` — an absent counterpart merely contributes no hit
entries and is omitted from that direction's reciprocal-rank mean.  The
function never returns partial results: any run either fails on those shape
checks or produces both outputs. -/
theorem claim4_no_failure_on_absent_counterpart
    (d1 d2 : List (List ℚ)) (pairs : List (ℕ × ℕ)) (ks : List ℕ)
    (hks : ks ≠ []) (h1 : d1.length = pairs.length) (h2 : d2.length = pairs.length) :
    computeMetrics d1 d2 pairs ks
      = some (hitsList d1 d2 pairs ks, mrrVal d1 d2 pairs) := by
  unfold computeMetrics
  rw [if_neg]
  push_neg
  exact ⟨hks, h1, h2⟩

/-- Witness for the amended C4 at a concrete input. -/
theorem claim4_witness :
    computeMetrics [[0, 1]] [[0]] [(0, 9)] [1]
      = some (hitsList [[0, 1]] [[0]] [(0, 9)] [1], mrrVal [[0, 1]] [[0]] [(0, 9)]) :=
  claim4_no_failure_on_absent_counterpart [[0, 1]] [[0]] [(0, 9)] [1]
    (by decide) rfl rfl

/-- C2: on every accepted input, and for each `k` in `hit_top_ks`, the
reported HITS table pairs `k` with the maximum over the two directions of the
number of `True` entries in the first `k` columns of that direction's hit
matrix divided by the number of test pairs. -/
theorem claim2_hits_reported
    (d1 d2 : List (List ℚ)) (pairs : List (ℕ × ℕ)) (ks : List ℕ)
    (hits : List (ℕ × ℚ)) (mrr : ℚ)
    (h : computeMetrics d1 d2 pairs ks = some (hits, mrr)) :
    ∀ k ∈ ks,
      (k, max (hitFracSpec (fwdSignal d1 pairs ks) k pairs.length)
              (hitFracSpec (bwdSignal d2 pairs ks) k pairs.length)) ∈ hits := by
  obtain ⟨-, -, -, hh, -⟩ := computeMetrics_some h
  subst hh
  intro k hk
  rw [hitFracSpec_eq, hitFracSpec_eq]
  exact List.mem_map.mpr ⟨k, hk, rfl⟩

/-- Witness for C2 at a concrete input. -/
theorem claim2_witness :
    ((1 : ℕ), max (hitFracSpec (fwdSignal [[0]] [(0, 0)] [1]) 1 1)
        (hitFracSpec (bwdSignal [[0]] [(0, 0)] [1]) 1 1))
      ∈ hitsList [[0]] [[0]] [(0, 0)] [1] :=
  claim2_hits_reported [[0]] [[0]] [(0, 0)] [1]
    (hitsList [[0]] [[0]] [(0, 0)] [1]) (mrrVal [[0]] [[0]] [(0, 0)])
    (by rw [computeMetrics, if_neg (by decide)]) 1 (by decide)

theorem argsortMatrix_length (d : List (List ℚ)) :
    (argsortMatrix d).length = d.length := by
  unfold argsortMatrix
  rw [List.length_map]

theorem zip_argsort_mem (d : List (List ℚ)) (pairs : List (ℕ × ℕ)) {M : ℕ}
    {f : ℕ × ℕ → ℕ} (hr : ∀ r ∈ d, r.length = M) (hp : ∀ p ∈ pairs, f p < M) :
    ∀ rt ∈ (argsortMatrix d).zip (pairs.map f), rt.1.Nodup ∧ rt.2 ∈ rt.1 := by
  rintro ⟨a, b⟩ hrt
  obtain ⟨ha, hb⟩ := List.of_mem_zip hrt
  obtain ⟨r, hrd, hra⟩ := List.mem_map.mp ha
  obtain ⟨p, hpp, hpb⟩ := List.mem_map.mp hb
  subst hra hpb
  exact ⟨argsortRow_nodup r, mem_argsortRow.mpr (by rw [hr r hrd]; exact hp p hpp)⟩

/-- C3: on every accepted input whose true counterpart indices are valid
column indices, the reported MRR is the maximum over the two directions of
the mean over all test pairs of `1 / (p + 1)`, where `p` is the 0-indexed
position of the pair's true counterpart in that direction's full rank row. -/
theorem claim3_mrr_reported
    (d1 d2 : List (List ℚ)) (pairs : List (ℕ × ℕ)) (ks : List ℕ)
    (hits : List (ℕ × ℚ)) (mrr : ℚ) (M1 M2 : ℕ)
    (h : computeMetrics d1 d2 pairs ks = some (hits, mrr))
    (hr1 : ∀ r ∈ d1, r.length = M1) (hr2 : ∀ r ∈ d2, r.length = M2)
    (ht : ∀ p ∈ pairs, p.2 < M1) (hs : ∀ p ∈ pairs, p.1 < M2) :
    mrr = max (recipRankMean (argsortMatrix d1) (pairs.map Prod.snd))
              (recipRankMean (argsortMatrix d2) (pairs.map Prod.fst)) := by
  obtain ⟨-, h1, h2, -, hm⟩ := computeMetrics_some h
  subst hm
  unfold mrrVal
  rw [meanRecip_matchCols (argsortMatrix d1) (pairs.map Prod.snd)
      (by rw [argsortMatrix_length, List.length_map, h1]) (zip_argsort_mem d1 pairs hr1 ht),
    meanRecip_matchCols (argsortMatrix d2) (pairs.map Prod.fst)
      (by rw [argsortMatrix_length, List.length_map, h2]) (zip_argsort_mem d2 pairs hr2 hs)]

/-- Witness for C3 at a concrete input. -/
theorem claim3_witness :
    mrrVal [[0]] [[0]] [(0, 0)]
      = max (recipRankMean (argsortMatrix [[0]]) ([(0, 0)].map Prod.snd))
            (recipRankMean (argsortMatrix [[0]]) ([(0, 0)].map Prod.fst)) :=
  claim3_mrr_reported [[0]] [[0]] [(0, 0)] [1]
    (hitsList [[0]] [[0]] [(0, 0)] [1]) (mrrVal [[0]] [[0]] [(0, 0)]) 1 1
    (by rw [computeMetrics, if_neg (by decide)])
    (by decide) (by decide) (by decide) (by decide)

theorem hitsAt_nonneg (s : List (List Bool)) (k n : ℕ) : 0 ≤ hitsAt s k n :=
  natCast_div_nonneg _ _

theorem hitsAt_mono (s : List (List Bool)) {k k' : ℕ} (n : ℕ) (h : k ≤ k') :
    hitsAt s k n ≤ hitsAt s k' n :=
  natCast_div_mono n (countHits_mono s h)

theorem hitsAt_signal_le_one (d : List (List ℚ)) (truths : List ℕ) (K k : ℕ)
    (hlen : d.length = truths.length) :
    hitsAt (signalHit (argsortMatrix d) truths K) k truths.length ≤ 1 := by
  apply natCast_div_le_one
  have hc := countHits_signal_le_length d truths K k
  rwa [List.length_zip, argsortMatrix_length, hlen, min_self] at hc

/-- C5: every reported HITS@k value lies in `[0, 1]`, and the HITS fractions
are monotonically non-decreasing in `k` — per direction before the max over
directions, and therefore also after it. -/
theorem claim5_hits_bounds_monotone
    (d1 d2 : List (List ℚ)) (pairs : List (ℕ × ℕ)) (ks : List ℕ)
    (hits : List (ℕ × ℚ)) (mrr : ℚ)
    (h : computeMetrics d1 d2 pairs ks = some (hits, mrr)) :
    (∀ kv ∈ hits,
        kv.2 = max (hitsAt (fwdSignal d1 pairs ks) kv.1 pairs.length)
                   (hitsAt (bwdSignal d2 pairs ks) kv.1 pairs.length)
          ∧ 0 ≤ kv.2 ∧ kv.2 ≤ 1)
      ∧ ∀ k k', k ≤ k' →
          hitsAt (fwdSignal d1 pairs ks) k pairs.length
              ≤ hitsAt (fwdSignal d1 pairs ks) k' pairs.length
            ∧ hitsAt (bwdSignal d2 pairs ks) k pairs.length
              ≤ hitsAt (bwdSignal d2 pairs ks) k' pairs.length
            ∧ max (hitsAt (fwdSignal d1 pairs ks) k pairs.length)
                  (hitsAt (bwdSignal d2 pairs ks) k pairs.length)
              ≤ max (hitsAt (fwdSignal d1 pairs ks) k' pairs.length)
                    (hitsAt (bwdSignal d2 pairs ks) k' pairs.length) := by
  obtain ⟨-, h1, h2, hh, -⟩ := computeMetrics_some h
  subst hh
  have hf1 : d1.length = (pairs.map Prod.snd).length := by rw [List.length_map, h1]
  have hf2 : d2.length = (pairs.map Prod.fst).length := by rw [List.length_map, h2]
  have hfwd1 : ∀ k, hitsAt (fwdSignal d1 pairs ks) k pairs.length ≤ 1 := by
    intro k
    have := hitsAt_signal_le_one d1 (pairs.map Prod.snd) (ks.getLastD 0) k hf1
    rwa [List.length_map] at this
  have hbwd1 : ∀ k, hitsAt (bwdSignal d2 pairs ks) k pairs.length ≤ 1 := by
    intro k
    have := hitsAt_signal_le_one d2 (pairs.map Prod.fst) (ks.getLastD 0) k hf2
    rwa [List.length_map] at this
  constructor
  · rintro kv hkv
    obtain ⟨k, hk, hkv'⟩ := List.mem_map.mp hkv
    subst hkv'
    refine ⟨rfl, le_max_of_le_left (hitsAt_nonneg _ _ _), max_le (hfwd1 k) (hbwd1 k)⟩
  · intro k k' hkk
    exact ⟨hitsAt_mono _ _ hkk, hitsAt_mono _ _ hkk,
      max_le_max (hitsAt_mono _ _ hkk) (hitsAt_mono _ _ hkk)⟩

/-- Witness for C5 at a concrete input. -/
theorem claim5_witness :
    hitsAt (fwdSignal [[0]] [(0, 0)] [1]) 1 1 ≤ hitsAt (fwdSignal [[0]] [(0, 0)] [1]) 2 1
      ∧ hitsAt (bwdSignal [[0]] [(0, 0)] [1]) 1 1 ≤ hitsAt (bwdSignal [[0]] [(0, 0)] [1]) 2 1
      ∧ max (hitsAt (fwdSignal [[0]] [(0, 0)] [1]) 1 1)
            (hitsAt (bwdSignal [[0]] [(0, 0)] [1]) 1 1)
          ≤ max (hitsAt (fwdSignal [[0]] [(0, 0)] [1]) 2 1)
                (hitsAt (bwdSignal [[0]] [(0, 0)] [1]) 2 1) :=
  (claim5_hits_bounds_monotone [[0]] [[0]] [(0, 0)] [1]
    (hitsList [[0]] [[0]] [(0, 0)] [1]) (mrrVal [[0]] [[0]] [(0, 0)])
    (by rw [computeMetrics, if_neg (by decide)])).2 1 2 (by decide)

theorem perfect_first_hit_mrr (d : List (List ℚ)) (truths : List ℕ) (K : ℕ)
    (hlen : d.length = truths.length) (hne : truths ≠ [])
    (hhit : hitsAt (signalHit (argsortMatrix d) truths K) 1 truths.length = 1) :
    meanRecip (matchCols (argsortMatrix d) truths) = 1 := by
  have hN0 : truths.length ≠ 0 := fun hc => hne (List.length_eq_zero.mp hc)
  have hNQ : ((truths.length : ℕ) : ℚ) ≠ 0 := Nat.cast_ne_zero.mpr hN0
  have hzlen : ((argsortMatrix d).zip truths).length = truths.length := by
    rw [List.length_zip, argsortMatrix_length, hlen, min_self]
  have hcount : countHits (signalHit (argsortMatrix d) truths K) 1 = truths.length := by
    have := (div_eq_one_iff_eq hNQ).mp hhit
    exact_mod_cast this
  rw [countHits_signalHit] at hcount
  have hall : ∀ rt ∈ (argsortMatrix d).zip truths, (rt.1.take (min 1 K)).count rt.2 = 1 := by
    intro rt hrt
    have h1 := sum_all_eq_one (l := ((argsortMatrix d).zip truths).map
        fun rt => (rt.1.take (min 1 K)).count rt.2)
      (fun x hx => by
        obtain ⟨rt', hrt', hval⟩ := List.mem_map.mp hx
        exact hval ▸ count_take_le_one (zip_argsort_nodup hrt') rt'.2 (min 1 K))
      (by rw [List.length_map, hzlen]; exact hcount)
    exact h1 _ (List.mem_map.mpr ⟨rt, hrt, rfl⟩)
  have hwp : ∀ rt ∈ (argsortMatrix d).zip truths, wherePositions rt.2 rt.1 0 = [0] := by
    intro rt hrt
    obtain ⟨rest, hrest⟩ := count_take_one_head (min_le_left 1 K) (hall rt hrt)
    have hnd := zip_argsort_nodup hrt
    rw [hrest] at hnd ⊢
    rw [wherePositions, if_pos rfl,
      wherePositions_of_not_mem rt.2 rest 1 (List.nodup_cons.mp hnd).1]
  unfold matchCols meanRecip
  rw [List.map_congr_left hwp, flatten_const_single, List.map_map, List.length_map, hzlen]
  have hone : ((fun p : ℕ => (1 : ℚ) / ((p : ℚ) + 1)) ∘ fun _ : List ℕ × ℕ => 0)
      = fun _ : List ℕ × ℕ => (1 : ℚ) := by
    funext rt
    simp
  rw [hone, List.map_const', List.sum_replicate, hzlen, nsmul_eq_mul, mul_one]
  exact div_self hNQ

/-- C6: on every accepted nonempty input, if the HITS@1 fraction of a
direction equals 1 (every pair's true counterpart ranked first there), then
that direction's mean reciprocal rank is also 1. -/
theorem claim6_perfect_hits_give_mrr_one
    (d1 d2 : List (List ℚ)) (pairs : List (ℕ × ℕ)) (ks : List ℕ)
    (hits : List (ℕ × ℚ)) (mrr : ℚ)
    (h : computeMetrics d1 d2 pairs ks = some (hits, mrr)) (hne : pairs ≠ []) :
    (hitsAt (fwdSignal d1 pairs ks) 1 pairs.length = 1 →
        meanRecip (matchCols (argsortMatrix d1) (pairs.map Prod.snd)) = 1)
      ∧ (hitsAt (bwdSignal d2 pairs ks) 1 pairs.length = 1 →
        meanRecip (matchCols (argsortMatrix d2) (pairs.map Prod.fst)) = 1) := by
  obtain ⟨-, h1, h2, -, -⟩ := computeMetrics_some h
  have hne1 : pairs.map Prod.snd ≠ [] := by
    intro hc
    exact hne (List.map_eq_nil_iff.mp hc)
  have hne2 : pairs.map Prod.fst ≠ [] := by
    intro hc
    exact hne (List.map_eq_nil_iff.mp hc)
  constructor
  · intro hhit
    refine perfect_first_hit_mrr d1 (pairs.map Prod.snd) (ks.getLastD 0)
      (by rw [List.length_map, h1]) hne1 ?_
    rwa [List.length_map]
  · intro hhit
    refine perfect_first_hit_mrr d2 (pairs.map Prod.fst) (ks.getLastD 0)
      (by rw [List.length_map, h2]) hne2 ?_
    rwa [List.length_map]

/-- Witness for C6 at a concrete input. -/
theorem claim6_witness :
    meanRecip (matchCols (argsortMatrix [[0]]) ([(0, 0)].map Prod.snd)) = 1 :=
  (claim6_perfect_hits_give_mrr_one [[0]] [[0]] [(0, 0)] [1]
    (hitsList [[0]] [[0]] [(0, 0)] [1]) (mrrVal [[0]] [[0]] [(0, 0)])
    (by rw [computeMetrics, if_neg (by decide)]) (by decide)).1
    (by
      have hc : countHits (fwdSignal [[0]] [(0, 0)] [1]) 1 = 1 := by decide
      rw [hitsAt, hc]
      norm_num)

theorem signal_rows_le (d : List (List ℚ)) (truths : List ℕ) (K : ℕ) {M : ℕ}
    (hr : ∀ r ∈ d, r.length = M) :
    ∀ r ∈ signalHit (argsortMatrix d) truths K, r.length ≤ M := by
  intro r hmem
  obtain ⟨rt, hrt, hval⟩ := signalHit_row_length hmem
  have h1 : rt.1 ∈ argsortMatrix d := by
    rcases rt with ⟨a, b⟩
    exact (List.of_mem_zip hrt).1
  rcases List.mem_map.mp h1 with ⟨row, hrow, heq⟩
  rw [hval, ← heq, argsortRow_length, hr row hrow]
  exact min_le_right K M

/-- C9: when `max(hit_top_ks)` exceeds the column count `M` of a distance
matrix, `compute_metrics` still completes without error (the column slice
silently clamps), and in that direction the HITS fraction at any `k ≥ M`
equals the HITS fraction at `M`. -/
theorem claim9_top_k_clamped
    (d1 d2 : List (List ℚ)) (pairs : List (ℕ × ℕ)) (ks : List ℕ) (M1 M2 k : ℕ)
    (hks : ks ≠ []) (h1 : d1.length = pairs.length) (h2 : d2.length = pairs.length)
    (hr1 : ∀ r ∈ d1, r.length = M1) (hr2 : ∀ r ∈ d2, r.length = M2) :
    (computeMetrics d1 d2 pairs ks).isSome = true
      ∧ (M1 ≤ k → hitsAt (fwdSignal d1 pairs ks) k pairs.length
          = hitsAt (fwdSignal d1 pairs ks) M1 pairs.length)
      ∧ (M2 ≤ k → hitsAt (bwdSignal d2 pairs ks) k pairs.length
          = hitsAt (bwdSignal d2 pairs ks) M2 pairs.length) := by
  refine ⟨?_, ?_, ?_⟩
  · rw [computeMetrics, if_neg (by push_neg; exact ⟨hks, h1, h2⟩)]
    rfl
  · intro hk
    unfold hitsAt fwdSignal
    rw [countHits_clamp hk (signal_rows_le d1 (pairs.map Prod.snd) (ks.getLastD 0) hr1)]
  · intro hk
    unfold hitsAt bwdSignal
    rw [countHits_clamp hk (signal_rows_le d2 (pairs.map Prod.fst) (ks.getLastD 0) hr2)]

/-- Witness for C9 at a concrete input with `max(hit_top_ks) = 5` exceeding
both column counts. -/
theorem claim9_witness :
    (computeMetrics [[0, 1]] [[0]] [(0, 0)] [5]).isSome = true
      ∧ hitsAt (fwdSignal [[0, 1]] [(0, 0)] [5]) 5 1
          = hitsAt (fwdSignal [[0, 1]] [(0, 0)] [5]) 2 1
      ∧ hitsAt (bwdSignal [[0]] [(0, 0)] [5]) 5 1
          = hitsAt (bwdSignal [[0]] [(0, 0)] [5]) 1 1 :=
  have h := claim9_top_k_clamped [[0, 1]] [[0]] [(0, 0)] [5] 2 1 5
    (by decide) rfl rfl (by decide) (by decide)
  ⟨h.1, h.2.1 (by decide), h.2.2 (by decide)⟩

/-- C8 counterexample: `log_path` counts every subdirectory, not only the
numbered `run_{k}` ones.  With one subdirectory named `misc` inside
`logs/ds_results`, the claim's count of numbered run subdirectories is `0`,
yet the returned path is `run_1`, not `run_0`. -/
theorem claim8_counterexample :
    (log_path fsWithMisc ("ds")).2 = "logs/ds_results/run_1"
      ∧ numberedRunCount fsWithMisc ("logs/ds_results") = 0
      ∧ "logs/ds_results/run_1"
          ≠ "logs/ds_results/run_" ++ toString (numberedRunCount fsWithMisc ("logs/ds_results")) := by
  refine ⟨rfl, rfl, ?_⟩
  decide

/-- C8 (amended): given a dataset name, `log_path` ensures the directory
`logs/{dataset}_results` exists (creating it when absent), counts all its
existing subdirectory entries — of any name, not only numbered `run_{k}`
ones — and returns the path `logs/{dataset}_results/run_{count}` without
creating that returned directory itself (and without touching the
filesystem at all when the parent directory already exists). -/
theorem claim8_run_path_behavior (fs : FileSystem) (ds : String) :
    (log_path fs ds).1.pathExists ("logs/" ++ ds ++ "_results") = true
      ∧ (log_path fs ds).2
          = "logs/" ++ ds ++ "_results" ++ "/run_"
            ++ toString (((log_path fs ds).1.entries ("logs/" ++ ds ++ "_results")).filter
                  fun e => e.2).length
      ∧ (log_path fs ds).1.pathExists (log_path fs ds).2 = fs.pathExists (log_path fs ds).2
      ∧ (fs.pathExists ("logs/" ++ ds ++ "_results") = true → (log_path fs ds).1 = fs) := by
  by_cases hex : fs.pathExists ("logs/" ++ ds ++ "_results") = true
  · have hfs : (log_path fs ds).1 = fs := by
      rw [log_path]
      simp [hex]
    refine ⟨?_, rfl, ?_, fun _ => hfs⟩
    · rw [hfs]
      exact hex
    · rw [hfs]
  · have hfs : (log_path fs ds).1 = makedirs fs ("logs/" ++ ds ++ "_results") := by
      rw [log_path]
      simp [hex]
    have hruns : (((log_path fs ds).1.entries ("logs/" ++ ds ++ "_results")).filter
        fun e => e.2).length = 0 := by
      rw [hfs]
      simp [makedirs]
    have hpath : (log_path fs ds).2
        = "logs/" ++ ds ++ "_results" ++ "/run_" ++ toString (0 : ℕ) := by
      have h0 : (log_path fs ds).2
          = "logs/" ++ ds ++ "_results" ++ "/run_"
            ++ toString (((log_path fs ds).1.entries ("logs/" ++ ds ++ "_results")).filter
                  fun e => e.2).length := rfl
      rw [h0, hruns]
    have hlen2 : ((log_path fs ds).2).length = ds.length + 19 := by
      rw [hpath]
      have e1 : ("logs/" : String).length = 5 := rfl
      have e2 : ("_results" : String).length = 8 := rfl
      have e3 : ("/run_" : String).length = 5 := rfl
      have e4 : (toString (0 : ℕ)).length = 1 := rfl
      simp only [String.length_append, e1, e2, e3, e4]
      omega
    have hlendir : ("logs/" ++ ds ++ "_results").length = ds.length + 13 := by
      have e1 : ("logs/" : String).length = 5 := rfl
      have e2 : ("_results" : String).length = 8 := rfl
      simp only [String.length_append, e1, e2]
      omega
    have hne1 : (log_path fs ds).2 ≠ "logs/" ++ ds ++ "_results" := by
      intro hc
      have := congrArg String.length hc
      omega
    have hne2 : (log_path fs ds).2 ≠ "logs" := by
      intro hc
      have := congrArg String.length hc
      have e5 : ("logs" : String).length = 4 := rfl
      omega
    refine ⟨?_, rfl, ?_, fun hc => absurd hc hex⟩
    · rw [hfs]
      simp [makedirs]
    · rw [hfs]
      show ((log_path fs ds).2 == "logs/" ++ ds ++ "_results"
          || (log_path fs ds).2 == "logs" || fs.pathExists ((log_path fs ds).2))
        = fs.pathExists ((log_path fs ds).2)
      rw [beq_eq_false_iff_ne.mpr hne1, beq_eq_false_iff_ne.mpr hne2]
      simp

/-- Witness for the amended C8 on the empty filesystem. -/
theorem claim8_witness :
    (log_path fsEmpty ("ds")).1.pathExists ("logs/" ++ "ds" ++ "_results") = true
      ∧ (log_path fsEmpty ("ds")).2
          = "logs/" ++ "ds" ++ "_results" ++ "/run_"
            ++ toString (((log_path fsEmpty ("ds")).1.entries
                  ("logs/" ++ "ds" ++ "_results")).filter fun e => e.2).length
      ∧ (log_path fsEmpty ("ds")).1.pathExists (log_path fsEmpty ("ds")).2
          = fsEmpty.pathExists (log_path fsEmpty ("ds")).2 :=
  have h := claim8_run_path_behavior fsEmpty ("ds")
  ⟨h.1, h.2.1, h.2.2.1⟩

end PGNA
